import Mathlib

/-!
# Verification of `schedule/periods.py` (django-schedule)

A shallow embedding of the `Period` class hierarchy of `schedule/periods.py`
together with proofs about occurrence classification, occurrence retrieval and
caching, time-slot carving, sub-period iteration and sibling navigation.

Python `datetime.datetime` values are modelled by the `DateTime` structure
below (proleptic Gregorian calendar, year unbounded); `datetime.timedelta`
day arithmetic is modelled by iterating the one-day successor/predecessor
functions `nextDay`/`prevDay`.  Mutable attributes of a `Period` instance
(the occurrence cache, the persisted-occurrence cache) are modelled by
`Option`-valued fields threaded through explicit state passing; the external
occurrence store is a function parameter.  Store reads are counted so that
memoization claims are expressible.
-/

/-! ## Dates and times

`tod` is the time of day in microseconds (Python datetimes have microsecond
resolution); only its ordering matters here.  Comparison of Python datetimes
is lexicographic on (year, month, day, time-of-day). -/

structure DateTime where
  year : Int
  month : Nat
  day : Nat
  tod : Nat
deriving DecidableEq, Repr

def isLeap (y : Int) : Bool := y % 4 == 0 && (y % 100 != 0 || y % 400 == 0)

def daysInMonth (y : Int) (m : Nat) : Nat :=
  match m with
  | 2 => if isLeap y then 29 else 28
  | 4 => 30
  | 6 => 30
  | 9 => 30
  | 11 => 30
  | _ => 31

/-- The values of `DateTime` that correspond to real Python `datetime`s
(months 1..12, days 1..month length, tod below one day). -/
def DateTime.ValidDT (d : DateTime) : Prop :=
  1 ≤ d.month ∧ d.month ≤ 12 ∧ 1 ≤ d.day ∧ d.day ≤ daysInMonth d.year d.month ∧
    d.tod < 86400000000

instance (d : DateTime) : Decidable d.ValidDT := by
  unfold DateTime.ValidDT; infer_instance

/-- Strict `datetime` comparison: lexicographic on (year, month, day, tod). -/
def dateLt (a b : DateTime) : Prop :=
  a.year < b.year ∨ (a.year = b.year ∧
    (a.month < b.month ∨ (a.month = b.month ∧
      (a.day < b.day ∨ (a.day = b.day ∧ a.tod < b.tod)))))

/-- Non-strict `datetime` comparison. -/
def dateLe (a b : DateTime) : Prop := dateLt a b ∨ a = b

instance (a b : DateTime) : Decidable (dateLt a b) := by
  unfold dateLt; infer_instance

instance (a b : DateTime) : Decidable (dateLe a b) := by
  unfold dateLe; infer_instance

theorem dateLe_iff (a b : DateTime) :
    dateLe a b ↔ (a.year < b.year ∨ (a.year = b.year ∧
      (a.month < b.month ∨ (a.month = b.month ∧
        (a.day < b.day ∨ (a.day = b.day ∧ a.tod ≤ b.tod)))))) := by
  unfold dateLe dateLt
  constructor
  · rintro (h | rfl) <;> omega
  · intro h
    by_cases hy : a.year = b.year
    · by_cases hm : a.month = b.month
      · by_cases hd : a.day = b.day
        · by_cases ht : a.tod = b.tod
          · right
            cases a; cases b
            simp_all
          · left; omega
        · left; omega
      · left; omega
    · left; omega

theorem dateLt_trans {a b c : DateTime} (h1 : dateLt a b) (h2 : dateLt b c) :
    dateLt a c := by
  unfold dateLt at *; omega

theorem dateLe_trans_lt {a b c : DateTime} (h1 : dateLe a b) (h2 : dateLt b c) :
    dateLt a c := by
  rcases h1 with h | rfl
  · exact dateLt_trans h h2
  · exact h2

theorem dateLt_irrefl (a : DateTime) : ¬ dateLt a a := by
  unfold dateLt; omega

theorem dateLt_asymm {a b : DateTime} (h : dateLt a b) : ¬ dateLt b a := by
  unfold dateLt at *; omega

theorem dateLt_or_ge (a b : DateTime) : dateLt a b ∨ dateLe b a := by
  rw [dateLe_iff]; unfold dateLt
  by_cases hy : a.year = b.year
  · by_cases hm : a.month = b.month
    · by_cases hd : a.day = b.day
      · omega
      · omega
    · omega
  · omega

/-! ## One-day arithmetic

`nextDay`/`prevDay` advance a `DateTime` by exactly one calendar day, keeping
the time of day, exactly as adding/subtracting `timedelta(days=1)` does. -/

def nextDay (d : DateTime) : DateTime :=
  if d.day < daysInMonth d.year d.month then
    { d with day := d.day + 1 }
  else if d.month < 12 then
    { year := d.year, month := d.month + 1, day := 1, tod := d.tod }
  else
    { year := d.year + 1, month := 1, day := 1, tod := d.tod }

def prevDay (d : DateTime) : DateTime :=
  if 1 < d.day then
    { d with day := d.day - 1 }
  else if 1 < d.month then
    { year := d.year, month := d.month - 1, day := daysInMonth d.year (d.month - 1),
      tod := d.tod }
  else
    { year := d.year - 1, month := 12, day := 31, tod := d.tod }

/-- `d + timedelta(days=n)`. -/
def addDays : Nat → DateTime → DateTime
  | 0, d => d
  | n + 1, d => addDays n (nextDay d)

/-- `d - timedelta(days=n)`. -/
def subDays : Nat → DateTime → DateTime
  | 0, d => d
  | n + 1, d => subDays n (prevDay d)

theorem daysInMonth_pos (y : Int) (m : Nat) : 1 ≤ daysInMonth y m := by
  unfold daysInMonth
  split <;> first | omega | (split <;> omega)

theorem daysInMonth_le (y : Int) (m : Nat) : daysInMonth y m ≤ 31 := by
  unfold daysInMonth
  split <;> first | omega | (split <;> omega)

theorem nextDay_valid {d : DateTime} (h : d.ValidDT) : (nextDay d).ValidDT := by
  have hp1 := daysInMonth_pos d.year (d.month + 1)
  have hp2 := daysInMonth_pos (d.year + 1) 1
  obtain ⟨h1, h2, h3, h4, h5⟩ := h
  cases d with
  | mk y m dd t =>
    simp only at h1 h2 h3 h4 h5 hp1 hp2
    unfold nextDay DateTime.ValidDT
    split_ifs with hA hB <;> simp_all <;> omega

theorem prevDay_valid {d : DateTime} (h : d.ValidDT) : (prevDay d).ValidDT := by
  have hp1 := daysInMonth_pos d.year (d.month - 1)
  obtain ⟨h1, h2, h3, h4, h5⟩ := h
  cases d with
  | mk y m dd t =>
    simp only at h1 h2 h3 h4 h5 hp1
    unfold prevDay DateTime.ValidDT
    split_ifs with hA hB <;> simp_all [daysInMonth] <;> omega

theorem prevDay_nextDay {d : DateTime} (h : d.ValidDT) : prevDay (nextDay d) = d := by
  have hle := daysInMonth_le d.year d.month
  obtain ⟨h1, h2, h3, h4, h5⟩ := h
  cases d with
  | mk y m dd t =>
    simp only at h1 h2 h3 h4 h5 hle
    rcases eq_or_lt_of_le h2 with hm | hm
    · subst hm
      unfold nextDay prevDay
      split_ifs <;> simp_all [daysInMonth] <;> omega
    · unfold nextDay prevDay
      split_ifs <;> simp_all [daysInMonth] <;> omega

theorem nextDay_prevDay {d : DateTime} (h : d.ValidDT) : nextDay (prevDay d) = d := by
  have hle := daysInMonth_le d.year d.month
  obtain ⟨h1, h2, h3, h4, h5⟩ := h
  cases d with
  | mk y m dd t =>
    simp only at h1 h2 h3 h4 h5 hle
    unfold prevDay
    split_ifs with hA hB <;> unfold nextDay <;> split_ifs with hC hD <;>
      simp_all [daysInMonth] <;> omega

theorem nextDay_tod (d : DateTime) : (nextDay d).tod = d.tod := by
  unfold nextDay; split <;> [skip; split] <;> simp

theorem prevDay_tod (d : DateTime) : (prevDay d).tod = d.tod := by
  unfold prevDay; split <;> [skip; split] <;> simp

theorem addDays_valid {d : DateTime} (n : Nat) (h : d.ValidDT) :
    (addDays n d).ValidDT := by
  induction n generalizing d with
  | zero => exact h
  | succ n ih => exact ih (nextDay_valid h)

theorem subDays_valid {d : DateTime} (n : Nat) (h : d.ValidDT) :
    (subDays n d).ValidDT := by
  induction n generalizing d with
  | zero => exact h
  | succ n ih => exact ih (prevDay_valid h)

theorem addDays_tod (n : Nat) (d : DateTime) : (addDays n d).tod = d.tod := by
  induction n generalizing d with
  | zero => rfl
  | succ n ih => rw [addDays, ih, nextDay_tod]

theorem subDays_tod (n : Nat) (d : DateTime) : (subDays n d).tod = d.tod := by
  induction n generalizing d with
  | zero => rfl
  | succ n ih => rw [subDays, ih, prevDay_tod]

theorem addDays_nextDay (n : Nat) (d : DateTime) :
    addDays n (nextDay d) = nextDay (addDays n d) := by
  induction n generalizing d with
  | zero => rfl
  | succ n ih => rw [addDays, addDays, ih]

theorem subDays_addDays {d : DateTime} (n : Nat) (h : d.ValidDT) :
    subDays n (addDays n d) = d := by
  induction n generalizing d with
  | zero => rfl
  | succ n ih =>
    rw [addDays, subDays, addDays_nextDay, prevDay_nextDay (addDays_valid n h), ih h]

theorem dateLt_nextDay {d : DateTime} (h : d.ValidDT) : dateLt d (nextDay d) := by
  obtain ⟨h1, h2, h3, h4, h5⟩ := h
  cases d with
  | mk y m dd t =>
    simp only at h1 h2 h3 h4 h5
    unfold nextDay dateLt
    split_ifs <;> simp_all <;> omega

theorem dateLt_addDays {d : DateTime} (n : Nat) (hn : 0 < n) (h : d.ValidDT) :
    dateLt d (addDays n d) := by
  induction n generalizing d with
  | zero => omega
  | succ n ih =>
    rw [addDays]
    rcases Nat.eq_zero_or_pos n with rfl | hpos
    · exact dateLt_nextDay h
    · exact dateLt_trans (dateLt_nextDay h) (ih hpos (nextDay_valid h))

theorem prevDay_dateLt {d : DateTime} (h : d.ValidDT) : dateLt (prevDay d) d := by
  obtain ⟨h1, h2, h3, h4, h5⟩ := h
  cases d with
  | mk y m dd t =>
    simp only at h1 h2 h3 h4 h5
    unfold prevDay dateLt
    split_ifs <;> simp_all <;> omega

theorem subDays_dateLe {d : DateTime} (n : Nat) (h : d.ValidDT) :
    dateLe (subDays n d) d := by
  induction n generalizing d with
  | zero => right; rfl
  | succ n ih =>
    rw [subDays]
    exact Or.inl (dateLe_trans_lt (ih (prevDay_valid h)) (prevDay_dateLt h))

/-! ## Day numbers and weekdays

`dayNumber` is a closed-form count of days (civil-from-days style, computed
per 400-year era); it is used to define `isoweekday` and to provide the
termination measure for sub-period iteration.  `marchBase g` counts days up
to 1 March of "shifted year" `g` (the year that starts in March, so that the
leap day is the last day of the shifted year). -/

def marchBase (g : Int) : Int :=
  146097 * (g / 400) + 365 * (g % 400) + (g % 400) / 4 - (g % 400) / 100

/-- Shifted year of a date: January and February count into the previous
shifted year. -/
def gOf (d : DateTime) : Int := if d.month ≤ 2 then d.year - 1 else d.year

/-- Day of the shifted year, 0-based from 1 March. -/
def doyOf (d : DateTime) : Int :=
  (153 * (if d.month ≤ 2 then (d.month : Int) + 9 else (d.month : Int) - 3) + 2) / 5 +
    (d.day : Int) - 1

def dayNumber (d : DateTime) : Int := marchBase (gOf d) + doyOf d

/-- Python's `datetime.isoweekday()`: Monday = 1 .. Sunday = 7. -/
def isoweekday (d : DateTime) : Int := (dayNumber d + 2) % 7 + 1

theorem marchBase_succ (g : Int) :
    marchBase (g + 1) = marchBase g + (if isLeap (g + 1) then 366 else 365) := by
  unfold marchBase
  split
  case isTrue h =>
    simp only [isLeap, Bool.and_eq_true, Bool.or_eq_true, beq_iff_eq, bne_iff_ne, ne_eq] at h
    omega
  case isFalse h =>
    simp only [isLeap, Bool.and_eq_true, Bool.or_eq_true, beq_iff_eq, bne_iff_ne, ne_eq] at h
    push_neg at h
    omega

theorem dayNumber_nextDay {d : DateTime} (h : d.ValidDT) :
    dayNumber (nextDay d) = dayNumber d + 1 := by
  obtain ⟨h1, h2, h3, h4, h5⟩ := h
  cases d with
  | mk y m dd t =>
    simp only at h1 h2 h3 h4 h5
    unfold nextDay
    dsimp only
    split_ifs with hA hB
    · unfold dayNumber gOf doyOf
      split_ifs <;> simp_all <;> omega
    · interval_cases m <;>
        (have hs := marchBase_succ (y - 1)
         have hy : y - 1 + 1 = y := by omega
         rw [hy] at hs
         unfold dayNumber gOf doyOf
         simp only [daysInMonth] at h4 hA
         norm_num
         first
         | omega
         | (cases hL : isLeap y <;> simp [hL] at hs h4 hA <;> omega))
    · have hm : m = 12 := by omega
      subst hm
      simp only [daysInMonth] at h4 hA
      unfold dayNumber gOf doyOf
      norm_num
      omega

theorem dayNumber_prevDay {d : DateTime} (h : d.ValidDT) :
    dayNumber (prevDay d) = dayNumber d - 1 := by
  have h2 := dayNumber_nextDay (prevDay_valid h)
  rw [nextDay_prevDay h] at h2
  omega

theorem dayNumber_addDays {d : DateTime} (n : Nat) (h : d.ValidDT) :
    dayNumber (addDays n d) = dayNumber d + n := by
  induction n generalizing d with
  | zero => simp [addDays]
  | succ n ih =>
    rw [addDays, ih (nextDay_valid h), dayNumber_nextDay h]
    omega

theorem dayNumber_subDays {d : DateTime} (n : Nat) (h : d.ValidDT) :
    dayNumber (subDays n d) = dayNumber d - n := by
  induction n generalizing d with
  | zero => simp [subDays]
  | succ n ih =>
    rw [subDays, ih (prevDay_valid h), dayNumber_prevDay h]
    omega

/-- Strict comparison of the date parts only (year, month, day). -/
def dateOnlyLt (a b : DateTime) : Prop :=
  a.year < b.year ∨ (a.year = b.year ∧
    (a.month < b.month ∨ (a.month = b.month ∧ a.day < b.day)))

theorem dayNumber_tod_irrel (a b : DateTime) (hy : a.year = b.year)
    (hm : a.month = b.month) (hd : a.day = b.day) : dayNumber a = dayNumber b := by
  cases a; cases b
  simp only at hy hm hd
  subst hy; subst hm; subst hd
  unfold dayNumber gOf doyOf
  simp

theorem doyOf_nonneg {d : DateTime} (h : d.ValidDT) : 0 ≤ doyOf d := by
  obtain ⟨h1, h2, h3, h4, h5⟩ := h
  unfold doyOf
  split_ifs <;> omega

theorem doyOf_le {d : DateTime} (h : d.ValidDT) :
    doyOf d ≤ if isLeap (gOf d + 1) then 365 else 364 := by
  obtain ⟨h1, h2, h3, h4, h5⟩ := h
  cases d with
  | mk y m dd t =>
    simp only at h1 h2 h3 h4 h5
    unfold doyOf gOf
    dsimp only
    interval_cases m <;>
      (simp only [daysInMonth] at h4
       norm_num
       first
       | (split_ifs <;> omega)
       | (cases hL : isLeap y <;> simp [hL] at h4 ⊢ <;> omega)
       | (cases hL : isLeap y <;> simp [hL] <;> omega))

theorem marchBase_succ_ge (g : Int) : marchBase g + 365 ≤ marchBase (g + 1) := by
  rw [marchBase_succ g]
  split_ifs <;> omega

theorem marchBase_mono {g g' : Int} (h : g < g') : marchBase (g + 1) ≤ marchBase g' := by
  have hk : ∀ k : Nat, marchBase (g + 1) ≤ marchBase (g + 1 + k) := by
    intro k
    induction k with
    | zero => simp
    | succ k ih =>
      have := marchBase_succ_ge (g + 1 + k)
      have heq : g + 1 + (k + 1 : Nat) = g + 1 + k + 1 := by push_cast; ring
      rw [heq]
      omega
  have hd : g' = g + 1 + ((g' - g - 1).toNat : Int) := by omega
  rw [hd]
  exact hk _

/-- Key step: the date-part order maps to the (shifted year, day-of-year) order. -/
theorem dateOnlyLt_key {a b : DateTime} (ha : a.ValidDT) (hb : b.ValidDT)
    (h : dateOnlyLt a b) :
    gOf a < gOf b ∨ (gOf a = gOf b ∧ doyOf a < doyOf b) := by
  obtain ⟨a1, a2, a3, a4, a5⟩ := ha
  obtain ⟨b1, b2, b3, b4, b5⟩ := hb
  have hla := daysInMonth_le a.year a.month
  have hlb := daysInMonth_le b.year b.month
  cases a with
  | mk ya ma da ta =>
    cases b with
    | mk yb mb db tb =>
      simp only at a1 a2 a3 a4 a5 b1 b2 b3 b4 b5 hla hlb
      unfold dateOnlyLt at h
      simp only at h
      unfold gOf doyOf
      simp only
      by_cases hma : ma ≤ 2 <;> by_cases hmb : mb ≤ 2
      · -- both January/February
        rw [if_pos hma, if_pos hma, if_pos hmb, if_pos hmb]
        interval_cases ma <;> interval_cases mb <;> omega
      · rw [if_pos hma, if_pos hma, if_neg hmb, if_neg hmb]
        interval_cases ma <;> omega
      · -- a in March..December, b in January/February: b's year is strictly later
        rw [if_neg hma, if_neg hma, if_pos hmb, if_pos hmb]
        rcases h with h | ⟨hy, h⟩
        · rcases lt_or_le ya (yb - 1) with hy2 | hy2
          · left; omega
          · have hy3 : yb = ya + 1 := by omega
            right
            constructor
            · omega
            · interval_cases ma <;> interval_cases mb <;> omega
        · omega
      · -- both in March..December
        rw [if_neg hma, if_neg hma, if_neg hmb, if_neg hmb]
        rcases h with h | ⟨hy, h⟩
        · left; omega
        · right
          refine ⟨by omega, ?_⟩
          have hma3 : 3 ≤ ma := by omega
          have hmb3 : 3 ≤ mb := by omega
          interval_cases ma <;> interval_cases mb <;>
            (simp only [daysInMonth] at a4; omega)

theorem dateOnlyLt_dayNumber {a b : DateTime} (ha : a.ValidDT) (hb : b.ValidDT)
    (h : dateOnlyLt a b) : dayNumber a < dayNumber b := by
  rcases dateOnlyLt_key ha hb h with hg | ⟨hg, hd⟩
  · have h1 := doyOf_le ha
    have h2 := doyOf_nonneg hb
    have h3 := marchBase_mono hg
    have h4 := marchBase_succ (gOf a)
    unfold dayNumber
    split_ifs at h1 h4 <;> omega
  · unfold dayNumber
    rw [hg]
    omega

theorem dateLt_dayNumber_le {a b : DateTime} (ha : a.ValidDT) (hb : b.ValidDT)
    (h : dateLt a b) : dayNumber a ≤ dayNumber b := by
  by_cases hy : a.year = b.year
  · by_cases hm : a.month = b.month
    · by_cases hd : a.day = b.day
      · exact le_of_eq (dayNumber_tod_irrel a b hy hm hd)
      · refine le_of_lt (dateOnlyLt_dayNumber ha hb ?_)
        unfold dateLt at h
        unfold dateOnlyLt
        omega
    · refine le_of_lt (dateOnlyLt_dayNumber ha hb ?_)
      unfold dateLt at h
      unfold dateOnlyLt
      omega
  · refine le_of_lt (dateOnlyLt_dayNumber ha hb ?_)
    unfold dateLt at h
    unfold dateOnlyLt
    omega

theorem dateLt_of_dayNumber_lt {a b : DateTime} (ha : a.ValidDT) (hb : b.ValidDT)
    (h : dayNumber a < dayNumber b) : dateLt a b := by
  rcases dateLt_or_ge b a with hlt | hle
  · have := dateLt_dayNumber_le hb ha hlt
    omega
  · rcases hle with hlt | rfl
    · exact hlt
    · omega

/-! ## The embedded module: constants and configuration

From the top of `schedule/periods.py`.  Settings read from `settings` /
`schedule.conf.settings` are gathered in a `Settings` record and passed
explicitly. -/

def OCCURRENCE_SPANS : Nat := 0
def OCCURRENCE_STARTS : Nat := 1
def OCCURRENCE_ENDS : Nat := 2
def OCCURRENCE_STARTS_ENDS : Nat := 3

/-- The dict `MAP_TO_OLD_OCCURRENCE_CLASS`; its keys are exactly 0..3 and the
code only ever looks up a value produced by the classification (0..3). -/
def MAP_TO_OLD_OCCURRENCE_CLASS : Nat → Nat
  | 0 => 2
  | 1 => 0
  | 2 => 3
  | _ => 1

/-- Process-wide configuration read by the module: `SHOW_CANCELLED_OCCURRENCES`
(from `schedule.conf.settings`), `USE_NEW_OCCURRENCE_CLASS_VALUES` and
`OCCURRENCE_CLASS_CSS_VALUES` (from `settings`, with defaults `False` and
`('spans','starts','ends','starts_ends')`), and `FIRST_DAY_OF_WEEK`. -/
structure Settings where
  SHOW_CANCELLED_OCCURRENCES : Bool
  USE_NEW_OCCURRENCE_CLASS_VALUES : Bool
  FIRST_DAY_OF_WEEK : Nat
  css_spans : String
  css_starts : String
  css_ends : String
  css_starts_ends : String
deriving DecidableEq, Repr

/-- The dict `OCCURRENCE_CLASS_CSS`, built from the 4-tuple
`OCCURRENCE_CLASS_CSS_VALUES`; keyed by the new-style class numbers 0..3. -/
def OCCURRENCE_CLASS_CSS (s : Settings) : Nat → String
  | 0 => s.css_spans
  | 1 => s.css_starts
  | 2 => s.css_ends
  | _ => s.css_starts_ends

/-- Events are opaque store keys here; only identity matters to this module. -/
abbrev Event := Nat

/-- External `Occurrence` entity: `start`, `end` and `cancelled` attributes
(`end` is a reserved word in Lean, hence `end_`). -/
structure Occ where
  start : DateTime
  end_ : DateTime
  cancelled : Bool
deriving DecidableEq, Repr

/-- The dict returned by `Period.classify_occurrence` (the Python key
`"class"` is the reserved word `class`, hence `occ_class`). -/
structure OccurrenceClassification where
  occurrence : Occ
  occ_class : Nat
  css_class : String
  spans : Bool
  only_starts : Bool
  only_ends : Bool
  starts_ends : Bool
deriving DecidableEq, Repr

/-! ## The `Period` class

Python attributes that may be absent (`_persisted_occurrences`, set in
`__init__` only when `parent_persisted_occurrences` is given;
`_occurrences`, set on first occurrence access; and the misspelled
`_persisted_occurrenes`, which no code ever sets) are modelled as `Option`
fields, `none` meaning the attribute is absent. -/

structure Period where
  events : List Event
  start : DateTime
  end_ : DateTime
  occurrence_pool : Option (List Occ)
  _persisted_occurrences : Option (List Occ)
  _persisted_occurrenes : Option (List Occ)
  _occurrences : Option (List Occ)
  _use_old_occurence_class_values : Bool
deriving DecidableEq, Repr

/-- `Period.__init__(events, start, end, parent_persisted_occurrences=None,
occurrence_pool=None)`; the final line calls
`use_new_occurrence_class_values(USE_NEW_OCCURRENCE_CLASS_VALUES)`, so the
flag is the negation of the global setting. -/
def Period.init (s : Settings) (events : List Event) (start end_ : DateTime)
    (parent_persisted_occurrences : Option (List Occ) := none)
    (occurrence_pool : Option (List Occ) := none) : Period :=
  { events := events
    start := start
    end_ := end_
    occurrence_pool := occurrence_pool
    _persisted_occurrences := parent_persisted_occurrences
    _persisted_occurrenes := none
    _occurrences := none
    _use_old_occurence_class_values := !s.USE_NEW_OCCURRENCE_CLASS_VALUES }

/-- `Period.use_new_occurrence_class_values(value)`. -/
def Period.use_new_occurrence_class_values (p : Period) (value : Bool) : Period :=
  { p with _use_old_occurence_class_values := !value }

/-- Lines 127-131 of `Period.classify_occurrence`: the raw numeric
classification, starting from `OCCURRENCE_SPANS` and adding
`OCCURRENCE_STARTS` / `OCCURRENCE_ENDS` after the two half-open tests. -/
def Period.occurrence_raw_class (p : Period) (occurrence : Occ) : Nat :=
  (OCCURRENCE_SPANS +
    (if dateLe p.start occurrence.start ∧ dateLt occurrence.start p.end_ then
      OCCURRENCE_STARTS else 0)) +
  (if dateLe p.start occurrence.end_ ∧ dateLt occurrence.end_ p.end_ then
    OCCURRENCE_ENDS else 0)

/-- Lines 132-134 of `Period.classify_occurrence`: the final `"class"` value
after the optional legacy remapping; the css lookup below uses the
pre-remapping value. -/
def Period.occurrence_final_class (p : Period) (occurrence : Occ) : Nat :=
  if p._use_old_occurence_class_values then
    MAP_TO_OLD_OCCURRENCE_CLASS (p.occurrence_raw_class occurrence)
  else
    p.occurrence_raw_class occurrence

/-- `Period.classify_occurrence(occurrence)`. -/
def Period.classify_occurrence (s : Settings) (p : Period) (occurrence : Occ) :
    Option OccurrenceClassification :=
  if occurrence.cancelled ∧ ¬ s.SHOW_CANCELLED_OCCURRENCES then none
  else if dateLt p.end_ occurrence.start ∨ dateLt occurrence.end_ p.start then none
  else
    some { occurrence := occurrence
           occ_class := p.occurrence_final_class occurrence
           css_class := OCCURRENCE_CLASS_CSS s (p.occurrence_raw_class occurrence)
           spans := p.occurrence_final_class occurrence == OCCURRENCE_SPANS
           only_starts := p.occurrence_final_class occurrence == OCCURRENCE_STARTS
           only_ends := p.occurrence_final_class occurrence == OCCURRENCE_ENDS
           starts_ends := p.occurrence_final_class occurrence == OCCURRENCE_STARTS_ENDS }

/-- `Period.get_time_slot(start, end)`: `Period(self.events, start, end)` when
the slot is inside the period, else `None`. -/
def Period.get_time_slot (s : Settings) (p : Period) (start end_ : DateTime) :
    Option Period :=
  if dateLe p.start start ∧ dateLe end_ p.end_ then
    some (Period.init s p.events start end_)
  else
    none

/-! ## Occurrence retrieval and caching

The external store appears as function parameters: `store e s e'` models
`event.get_occurrences(s, e')` and `persisted_store evs` models
`Occurrence.objects.filter(event__in=evs)`.  Retrieval functions also return
the number of store queries issued, so that caching behaviour is a provable
statement.  Modelled from the spec: Python's `sorted` uses the external
`Occurrence` ordering, which orders occurrences by `(start, end)` ascending
with a stable tie-break; `occLeKey` is that order and `mergeSort` is a
stable sort. -/

def occLeKey (a b : Occ) : Bool :=
  decide (dateLt a.start b.start ∨ (a.start = b.start ∧ dateLe a.end_ b.end_))

/-- `Period._get_sorted_occurrences(self)`: pool path filters the pool by the
inclusive overlap test, query path concatenates per-event store results and
sorts them.  Second component: number of store queries issued. -/
def Period._get_sorted_occurrences (store : Event → DateTime → DateTime → List Occ)
    (p : Period) : List Occ × Nat :=
  match p.occurrence_pool with
  | some pool =>
      (pool.filter (fun occurrence =>
        decide (dateLe occurrence.start p.end_ ∧ dateLe p.start occurrence.end_)), 0)
  | none =>
      (((p.events.map (fun event => store event p.start p.end_)).flatten).mergeSort
        occLeKey, p.events.length)

/-- `Period.cached_get_sorted_occurrences(self)` (the `occurrences` property):
returns the cached list when the `_occurrences` attribute exists, otherwise
computes, stores and returns it.  Returns (result, updated self, queries). -/
def Period.cached_get_sorted_occurrences
    (store : Event → DateTime → DateTime → List Occ) (p : Period) :
    List Occ × Period × Nat :=
  match p._occurrences with
  | some occs => (occs, p, 0)
  | none =>
      let r := p._get_sorted_occurrences store
      (r.1, { p with _occurrences := some r.1 }, r.2)

/-- `Period.get_persisted_occurrences(self)`.  Note the guard tests the
misspelled attribute `_persisted_occurrenes` (which nothing ever sets) while
the stored attribute is `_persisted_occurrences`; the first component is
`none` when the read of `self._persisted_occurrences` would raise
`AttributeError`.  Returns (result, updated self, queries). -/
def Period.get_persisted_occurrences (persisted_store : List Event → List Occ)
    (p : Period) : Option (List Occ) × Period × Nat :=
  match p._persisted_occurrenes with
  | some _ => (p._persisted_occurrences, p, 0)
  | none =>
      let r := persisted_store p.events
      (some r, { p with _persisted_occurrences := some r }, 1)

/-! ## Classification properties (C1, C2, C3, C9, C10) and time slots (C7) -/

theorem occurrence_raw_class_lt (p : Period) (o : Occ) :
    p.occurrence_raw_class o < 4 := by
  unfold Period.occurrence_raw_class OCCURRENCE_SPANS OCCURRENCE_STARTS OCCURRENCE_ENDS
  split_ifs <;> omega

/-- C2: `classify_occurrence` returns `None` exactly for a hidden cancelled
occurrence, or an occurrence that fails the inclusive overlap test
(`occurrence.start > end or occurrence.end < start`); otherwise it returns a
classification dict. -/
theorem claim_C2 (s : Settings) (p : Period) (o : Occ) :
    p.classify_occurrence s o = none ↔
      ((o.cancelled = true ∧ s.SHOW_CANCELLED_OCCURRENCES = false) ∨
        (dateLt p.end_ o.start ∨ dateLt o.end_ p.start)) := by
  unfold Period.classify_occurrence
  split_ifs with h1 h2
  · simp only [Bool.not_eq_true] at h1
    simp [h1]
  · simp [h2]
  · simp only [Bool.not_eq_true] at h1
    simp only [reduceCtorEq, false_iff]
    push_neg
    refine ⟨?_, ?_⟩
    · intro hc hs
      exact absurd ⟨hc, by simp [hs]⟩ h1
    · push_neg at h2
      exact h2

/-- C1: for a non-rejected occurrence the classification is computed
additively from the two independent half-open tests
(`start <= occurrence.start < end` and `start <= occurrence.end < end`),
giving exactly `SPANS = 0`, `STARTS = 1`, `ENDS = 2` or `STARTS_ENDS = 3`. -/
theorem claim_C1 (s : Settings) (p : Period) (o : Occ)
    (hrange : dateLt p.start p.end_)
    (hcanc : ¬ (o.cancelled = true ∧ s.SHOW_CANCELLED_OCCURRENCES = false))
    (hover : ¬ (dateLt p.end_ o.start ∨ dateLt o.end_ p.start)) :
    (∃ r, p.classify_occurrence s o = some r) ∧
    p.occurrence_raw_class o =
      OCCURRENCE_SPANS +
        (if dateLe p.start o.start ∧ dateLt o.start p.end_ then OCCURRENCE_STARTS else 0) +
        (if dateLe p.start o.end_ ∧ dateLt o.end_ p.end_ then OCCURRENCE_ENDS else 0) ∧
    (p.occurrence_raw_class o = OCCURRENCE_SPANS ↔
      ¬ (dateLe p.start o.start ∧ dateLt o.start p.end_) ∧
      ¬ (dateLe p.start o.end_ ∧ dateLt o.end_ p.end_)) ∧
    (p.occurrence_raw_class o = OCCURRENCE_STARTS ↔
      (dateLe p.start o.start ∧ dateLt o.start p.end_) ∧
      ¬ (dateLe p.start o.end_ ∧ dateLt o.end_ p.end_)) ∧
    (p.occurrence_raw_class o = OCCURRENCE_ENDS ↔
      ¬ (dateLe p.start o.start ∧ dateLt o.start p.end_) ∧
      (dateLe p.start o.end_ ∧ dateLt o.end_ p.end_)) ∧
    (p.occurrence_raw_class o = OCCURRENCE_STARTS_ENDS ↔
      (dateLe p.start o.start ∧ dateLt o.start p.end_) ∧
      (dateLe p.start o.end_ ∧ dateLt o.end_ p.end_)) := by
  have hcanc' : ¬ (o.cancelled = true ∧ ¬ s.SHOW_CANCELLED_OCCURRENCES = true) := by
    intro hc
    exact hcanc ⟨hc.1, by simpa using hc.2⟩
  refine ⟨?_, rfl, ?_, ?_, ?_, ?_⟩
  · unfold Period.classify_occurrence
    rw [if_neg hcanc', if_neg hover]
    exact ⟨_, rfl⟩
  all_goals
    simp only [Period.occurrence_raw_class, OCCURRENCE_SPANS, OCCURRENCE_STARTS,
      OCCURRENCE_ENDS, OCCURRENCE_STARTS_ENDS]
    split_ifs <;> simp_all

/-- C3: the legacy remapping is the bijection `{0→2, 1→0, 2→3, 3→1}` on the
four classification values, and the `css_class` in every returned dict is
looked up from the unmapped (new-style) class, in both legacy and new mode. -/
theorem claim_C3 (s : Settings) (p : Period) (o : Occ)
    (r : OccurrenceClassification) (h : p.classify_occurrence s o = some r) :
    MAP_TO_OLD_OCCURRENCE_CLASS OCCURRENCE_SPANS = 2 ∧
    MAP_TO_OLD_OCCURRENCE_CLASS OCCURRENCE_STARTS = 0 ∧
    MAP_TO_OLD_OCCURRENCE_CLASS OCCURRENCE_ENDS = 3 ∧
    MAP_TO_OLD_OCCURRENCE_CLASS OCCURRENCE_STARTS_ENDS = 1 ∧
    (∀ a b : Fin 4, MAP_TO_OLD_OCCURRENCE_CLASS a = MAP_TO_OLD_OCCURRENCE_CLASS b →
      a = b) ∧
    (∀ a : Fin 4, MAP_TO_OLD_OCCURRENCE_CLASS a < 4) ∧
    r.css_class = OCCURRENCE_CLASS_CSS s (p.occurrence_raw_class o) := by
  refine ⟨rfl, rfl, rfl, rfl, by decide, by decide, ?_⟩
  unfold Period.classify_occurrence at h
  split_ifs at h
  injection h with h
  subst h
  rfl

theorem dateLe_refl (a : DateTime) : dateLe a a := Or.inr rfl

theorem dateLt_not_le {a b : DateTime} (h : dateLt a b) : ¬ dateLe b a := by
  rintro (h2 | rfl)
  · exact dateLt_asymm h h2
  · exact dateLt_irrefl _ h

theorem dateLt_trans_le {a b c : DateTime} (h1 : dateLt a b) (h2 : dateLe b c) :
    dateLt a c := by
  rcases h2 with h2 | rfl
  · exact dateLt_trans h1 h2
  · exact h1

/-- C9 (amended): the returned dict carries the occurrence, a single numeric
`"class"` (the raw class in new mode, the legacy-remapped class in legacy
mode — not both), and the css string; the four boolean flags compare that
single, possibly remapped, class against the new-style constants, so exactly
one flag is true in every mode, but the true flag matches the raw
classification only in new mode. -/
theorem claim_C9 (s : Settings) (p : Period) (o : Occ)
    (r : OccurrenceClassification) (h : p.classify_occurrence s o = some r) :
    r.occurrence = o ∧
    r.occ_class = p.occurrence_final_class o ∧
    r.css_class = OCCURRENCE_CLASS_CSS s (p.occurrence_raw_class o) ∧
    r.spans = (r.occ_class == OCCURRENCE_SPANS) ∧
    r.only_starts = (r.occ_class == OCCURRENCE_STARTS) ∧
    r.only_ends = (r.occ_class == OCCURRENCE_ENDS) ∧
    r.starts_ends = (r.occ_class == OCCURRENCE_STARTS_ENDS) ∧
    r.spans.toNat + r.only_starts.toNat + r.only_ends.toNat + r.starts_ends.toNat = 1 ∧
    (p._use_old_occurence_class_values = false →
      r.occ_class = p.occurrence_raw_class o ∧
      r.spans = (p.occurrence_raw_class o == OCCURRENCE_SPANS) ∧
      r.only_starts = (p.occurrence_raw_class o == OCCURRENCE_STARTS) ∧
      r.only_ends = (p.occurrence_raw_class o == OCCURRENCE_ENDS) ∧
      r.starts_ends = (p.occurrence_raw_class o == OCCURRENCE_STARTS_ENDS)) := by
  unfold Period.classify_occurrence at h
  split_ifs at h
  injection h with h
  subst h
  refine ⟨rfl, rfl, rfl, rfl, rfl, rfl, rfl, ?_, ?_⟩
  · have hk := occurrence_raw_class_lt p o
    unfold Period.occurrence_final_class
    rcases hu : p._use_old_occurence_class_values <;> simp only [hu] <;>
      interval_cases hkv : (p.occurrence_raw_class o) <;> rfl
  · intro hu
    unfold Period.occurrence_final_class
    simp [hu]

/-- C10: boundary-touching occurrences with zero overlap length are still
classified (SPANS when `occurrence.start == end`, ENDS when
`occurrence.end == start` with an earlier start), and are likewise retained
by the occurrence-pool filter, because both the rejection test and the pool
filter are inclusive while the classification tests are half-open. -/
theorem claim_C10 (s : Settings) (p : Period) (o : Occ)
    (hrange : dateLt p.start p.end_) (hwf : dateLe o.start o.end_)
    (hnc : o.cancelled = false) :
    (o.start = p.end_ →
      (∃ r, p.classify_occurrence s o = some r) ∧
      p.occurrence_raw_class o = OCCURRENCE_SPANS ∧
      ¬ (dateLe p.start o.start ∧ dateLt o.start p.end_) ∧
      ¬ (dateLe p.start o.end_ ∧ dateLt o.end_ p.end_) ∧
      (∀ (store : Event → DateTime → DateTime → List Occ) (q : Period)
          (l : List Occ), q.start = p.start → q.end_ = p.end_ →
          q.occurrence_pool = some l → o ∈ l →
          o ∈ (q._get_sorted_occurrences store).1)) ∧
    (o.end_ = p.start ∧ dateLt o.start p.start →
      (∃ r, p.classify_occurrence s o = some r) ∧
      p.occurrence_raw_class o = OCCURRENCE_ENDS ∧
      ¬ (dateLe p.start o.start ∧ dateLt o.start p.end_) ∧
      (∀ (store : Event → DateTime → DateTime → List Occ) (q : Period)
          (l : List Occ), q.start = p.start → q.end_ = p.end_ →
          q.occurrence_pool = some l → o ∈ l →
          o ∈ (q._get_sorted_occurrences store).1)) := by
  constructor
  · intro hA
    have hoe : dateLe p.end_ o.end_ := by rw [← hA]; exact hwf
    have hns : ¬ (dateLe p.start o.start ∧ dateLt o.start p.end_) := by
      rintro ⟨-, hlt⟩
      rw [hA] at hlt
      exact dateLt_irrefl _ hlt
    have hne : ¬ (dateLe p.start o.end_ ∧ dateLt o.end_ p.end_) := by
      rintro ⟨-, hlt⟩
      exact dateLt_irrefl _ (dateLe_trans_lt hoe hlt)
    have hguard : ¬ (dateLt p.end_ o.start ∨ dateLt o.end_ p.start) := by
      rintro (hlt | hlt)
      · rw [hA] at hlt
        exact dateLt_irrefl _ hlt
      · exact dateLt_irrefl _ (dateLt_trans (dateLe_trans_lt hoe hlt) hrange)
    refine ⟨?_, ?_, hns, hne, ?_⟩
    · unfold Period.classify_occurrence
      rw [if_neg (by simp [hnc]), if_neg hguard]
      exact ⟨_, rfl⟩
    · unfold Period.occurrence_raw_class
      rw [if_neg hns, if_neg hne]
      rfl
    · intro store q l hqs hqe hql hmem
      unfold Period._get_sorted_occurrences
      rw [hql]
      simp only [List.mem_filter, decide_eq_true_eq]
      refine ⟨hmem, ?_, ?_⟩
      · rw [hqe, ← hA]
        exact dateLe_refl _
      · rw [hqs]
        exact Or.inl (dateLt_trans_le hrange hoe)
  · rintro ⟨hB, hBs⟩
    have hns : ¬ (dateLe p.start o.start ∧ dateLt o.start p.end_) := by
      rintro ⟨hle, -⟩
      exact dateLt_not_le hBs hle
    have hguard : ¬ (dateLt p.end_ o.start ∨ dateLt o.end_ p.start) := by
      rintro (hlt | hlt)
      · exact dateLt_asymm (dateLt_trans hBs hrange) hlt
      · rw [hB] at hlt
        exact dateLt_irrefl _ hlt
    refine ⟨?_, ?_, hns, ?_⟩
    · unfold Period.classify_occurrence
      rw [if_neg (by simp [hnc]), if_neg hguard]
      exact ⟨_, rfl⟩
    · unfold Period.occurrence_raw_class
      rw [if_neg hns,
        if_pos ⟨by rw [hB]; exact dateLe_refl _, by rw [hB]; exact hrange⟩]
      rfl
    · intro store q l hqs hqe hql hmem
      unfold Period._get_sorted_occurrences
      rw [hql]
      simp only [List.mem_filter, decide_eq_true_eq]
      refine ⟨hmem, ?_, ?_⟩
      · rw [hqe]
        exact Or.inl (dateLt_trans hBs hrange)
      · rw [hqs, ← hB]
        exact dateLe_refl _

/-- C7: `get_time_slot(start, end)` returns, exactly when
`start >= self.start and end <= self.end`, a fresh `Period` over the slot
sharing this period's events but with no occurrence pool, no
persisted-occurrence cache and no occurrence cache (it would re-query), and
returns `None` otherwise; the receiver is not mutated (the embedding is
pure in `p`). -/
theorem claim_C7 (s : Settings) (p : Period) (start end_ : DateTime) :
    p.get_time_slot s start end_ =
      (if dateLe p.start start ∧ dateLe end_ p.end_ then
        some { events := p.events
               start := start
               end_ := end_
               occurrence_pool := none
               _persisted_occurrences := none
               _persisted_occurrenes := none
               _occurrences := none
               _use_old_occurence_class_values := !s.USE_NEW_OCCURRENCE_CLASS_VALUES }
       else none) := by
  unfold Period.get_time_slot Period.init
  rfl

/-! ## Concrete fixtures for witnesses and counterexamples

Dates follow the repository's own test data (`test_periods.py`): a period
from 2008-01-04 07:00 to 2008-01-21 07:00 and an occurrence
2008-01-05 08:00 .. 09:00.  `tod` values are microseconds since midnight. -/

def dtJan4 : DateTime := ⟨2008, 1, 4, 25200000000⟩
def dtJan5a : DateTime := ⟨2008, 1, 5, 28800000000⟩
def dtJan5b : DateTime := ⟨2008, 1, 5, 32400000000⟩
def dtJan21 : DateTime := ⟨2008, 1, 21, 25200000000⟩

def settings_new : Settings :=
  ⟨true, true, 0, "spans", "starts", "ends", "starts_ends"⟩

def settings_legacy : Settings :=
  ⟨true, false, 0, "spans", "starts", "ends", "starts_ends"⟩

def periodW : Period := Period.init settings_new [] dtJan4 dtJan21
def occW : Occ := ⟨dtJan5a, dtJan5b, false⟩

theorem claim_C1_witness :
    (∃ r, periodW.classify_occurrence settings_new occW = some r) ∧
    periodW.occurrence_raw_class occW = OCCURRENCE_STARTS_ENDS := by
  have h := claim_C1 settings_new periodW occW (by decide) (by decide) (by decide)
  exact ⟨h.1, h.2.2.2.2.2.mpr ⟨by decide, by decide⟩⟩

def recW : OccurrenceClassification :=
  ⟨occW, 3, "starts_ends", false, false, false, true⟩

theorem claim_C3_witness :
    MAP_TO_OLD_OCCURRENCE_CLASS OCCURRENCE_SPANS = 2 ∧
    recW.css_class = OCCURRENCE_CLASS_CSS settings_new
      (periodW.occurrence_raw_class occW) := by
  have h := claim_C3 settings_new periodW occW recW (by decide)
  exact ⟨h.1, h.2.2.2.2.2.2⟩

/-- The legacy-mode period/occurrence pair for C9: default settings
(`USE_NEW_OCCURRENCE_CLASS_VALUES = False`), an occurrence spanning the
whole period. -/
def periodL : Period := Period.init settings_legacy [] dtJan4 dtJan21
def occSpanL : Occ := ⟨⟨2008, 1, 1, 28800000000⟩, ⟨2008, 1, 23, 32400000000⟩, false⟩

/-- C9 counterexample: in legacy mode (the default configuration) a spanning
occurrence's dict has raw classification `SPANS` but `spans = false` and
`only_ends = true`, with the single `"class"` key holding the remapped value
2 rather than the raw classification — so the flag matching the raw
classification is not the one set, and the record does not carry the raw
numeric class. -/
theorem claim_C9_counterexample :
    periodL.occurrence_raw_class occSpanL = OCCURRENCE_SPANS ∧
    (periodL.classify_occurrence settings_legacy occSpanL).map
      (fun r => (r.occ_class, r.spans, r.only_ends)) = some (2, false, true) := by
  decide

def recL : OccurrenceClassification := ⟨occSpanL, 2, "spans", false, false, true, false⟩

theorem claim_C9_witness :
    recL.occ_class = periodL.occurrence_final_class occSpanL ∧
    recL.spans.toNat + recL.only_starts.toNat + recL.only_ends.toNat +
      recL.starts_ends.toNat = 1 := by
  have h := claim_C9 settings_legacy periodL occSpanL recL (by decide)
  exact ⟨h.2.1, h.2.2.2.2.2.2.2.1⟩

/-- Occurrence that starts exactly at the period's end (zero overlap). -/
def occTouchW : Occ := ⟨dtJan21, ⟨2008, 1, 22, 0⟩, false⟩

theorem claim_C10_witness :
    (∃ r, periodW.classify_occurrence settings_new occTouchW = some r) ∧
    periodW.occurrence_raw_class occTouchW = OCCURRENCE_SPANS := by
  have h := (claim_C10 settings_new periodW occTouchW (by decide) (by decide)
    (by decide)).1 (by decide)
  exact ⟨h.1, h.2.1⟩

/-- C4: every element of the occurrence list overlaps the period inclusively
(`element.start <= self.end and element.end >= self.start`); on the pool path
the result is a subsequence of the pool (order preserved), hence sorted by
`(start, end)` whenever the supplied pool is; and the list is computed once —
re-reading the property on the updated period returns the identical cached
list with zero further store queries.  On the query path the overlap property
rests on the store contract (spec: the store returns the occurrences of an
event overlapping `[start, end]`), taken as the hypothesis `hstore`. -/
theorem claim_C4 (store : Event → DateTime → DateTime → List Occ) (p : Period)
    (hfresh : p._occurrences = none)
    (hstore : ∀ e o, o ∈ store e p.start p.end_ →
      dateLe o.start p.end_ ∧ dateLe p.start o.end_) :
    (∀ o ∈ (p.cached_get_sorted_occurrences store).1,
        dateLe o.start p.end_ ∧ dateLe p.start o.end_) ∧
    (∀ pool, p.occurrence_pool = some pool →
        ((p.cached_get_sorted_occurrences store).1.Sublist pool ∧
          (List.Pairwise (fun a b => occLeKey a b = true) pool →
            List.Pairwise (fun a b => occLeKey a b = true)
              (p.cached_get_sorted_occurrences store).1))) ∧
    ((p.cached_get_sorted_occurrences store).2.1.cached_get_sorted_occurrences
        store =
      ((p.cached_get_sorted_occurrences store).1,
        (p.cached_get_sorted_occurrences store).2.1, 0)) := by
  have hc : p.cached_get_sorted_occurrences store =
      ((p._get_sorted_occurrences store).1,
        { p with _occurrences := some (p._get_sorted_occurrences store).1 },
        (p._get_sorted_occurrences store).2) := by
    unfold Period.cached_get_sorted_occurrences
    rw [hfresh]
  rw [hc]
  refine ⟨?_, ?_, ?_⟩
  · intro o ho
    unfold Period._get_sorted_occurrences at ho
    cases hp : p.occurrence_pool with
    | some pool =>
      rw [hp] at ho
      simp only [List.mem_filter, decide_eq_true_eq] at ho
      exact ho.2
    | none =>
      rw [hp] at ho
      simp only [List.mem_mergeSort, List.mem_flatten, List.mem_map] at ho
      obtain ⟨l, ⟨e, he, rfl⟩, hol⟩ := ho
      exact hstore e o hol
  · intro pool hp
    unfold Period._get_sorted_occurrences
    rw [hp]
    exact ⟨List.filter_sublist _, fun hsorted =>
      hsorted.sublist (List.filter_sublist _)⟩
  · unfold Period.cached_get_sorted_occurrences
    rfl

/-- Second event and second occurrence for the persisted-occurrence fixture:
the external store answer differs from the parent-supplied list, making the
failed memoization observable. -/
def occB : Occ := ⟨⟨2008, 1, 12, 28800000000⟩, ⟨2008, 1, 12, 32400000000⟩, false⟩

/-- A period built with `parent_persisted_occurrences = [occW]`. -/
def periodP : Period :=
  Period.init settings_legacy [0] dtJan4 dtJan21 (some [occW]) none

def pstoreB : List Event → List Occ := fun _ => [occB]

/-- C8: `get_persisted_occurrences` tests the misspelled attribute
`_persisted_occurrenes`, which no code ever sets, so the memoization branch
is dead: on a period constructed with `parent_persisted_occurrences = [occW]`
the call ignores the stored list, issues a store query (count 1), answers
with the fresh store result `[occB]`, overwrites the stored attribute, and a
second call issues yet another query. -/
theorem claim_C8_bug :
    periodP._persisted_occurrences = some [occW] ∧
    (periodP.get_persisted_occurrences pstoreB).1 = some [occB] ∧
    (periodP.get_persisted_occurrences pstoreB).2.2 = 1 ∧
    ((periodP.get_persisted_occurrences pstoreB).2.1.get_persisted_occurrences
        pstoreB).2.2 = 1 ∧
    (periodP.get_persisted_occurrences pstoreB).2.1._persisted_occurrences =
      some [occB] := by
  decide

def storeEmpty : Event → DateTime → DateTime → List Occ := fun _ _ _ => []

def periodPool : Period :=
  Period.init settings_new [0] dtJan4 dtJan21 none (some [occW])

theorem claim_C4_witness :
    (∀ o ∈ (periodPool.cached_get_sorted_occurrences storeEmpty).1,
        dateLe o.start periodPool.end_ ∧ dateLe periodPool.start o.end_) ∧
    ((periodPool.cached_get_sorted_occurrences storeEmpty).2.1.cached_get_sorted_occurrences
        storeEmpty =
      ((periodPool.cached_get_sorted_occurrences storeEmpty).1,
        (periodPool.cached_get_sorted_occurrences storeEmpty).2.1, 0)) := by
  have h := claim_C4 storeEmpty periodPool (by decide)
    (by intro e o ho; simp [storeEmpty] at ho)
  exact ⟨h.1, h.2.2⟩

/-! ## Year / Month / Week / Day ranges and sibling navigation

Each subclass derives its `(start, end)` from a reference instant in
`__init__` via `_get_*_range`, and `next`/`prev` construct a sibling from
`self.end` / a computed earlier instant.  A period of such a subclass is
represented by its `(start, end)` pair. -/

/-- `datetime.combine(d.date(), time.min)`: midnight of the same date. -/
def dateFloor (d : DateTime) : DateTime := ⟨d.year, d.month, d.day, 0⟩

/-- `Year._get_year_range`: 1 January of the reference year to 1 January of
the following year (times default to midnight). -/
def Year_get_year_range (year : DateTime) : DateTime × DateTime :=
  (⟨year.year, 1, 1, 0⟩, ⟨year.year + 1, 1, 1, 0⟩)

/-- `Year.next_year`: `Year(self.events, self.end)`. -/
def Year_next (p : DateTime × DateTime) : DateTime × DateTime :=
  Year_get_year_range p.2

/-- `Year.prev_year`: `Year(self.events, datetime(start.year-1, start.month,
start.day))`. -/
def Year_prev (p : DateTime × DateTime) : DateTime × DateTime :=
  Year_get_year_range ⟨p.1.year - 1, p.1.month, p.1.day, 0⟩

/-- `Month._get_month_range`: first of the reference month to first of the
next month, with December rolling over to January. -/
def Month_get_month_range (month : DateTime) : DateTime × DateTime :=
  (⟨month.year, month.month, 1, 0⟩,
   if month.month = 12 then ⟨month.year + 1, 1, 1, 0⟩
   else ⟨month.year, month.month + 1, 1, 0⟩)

/-- `Month.next_month`: `Month(self.events, self.end)`. -/
def Month_next (p : DateTime × DateTime) : DateTime × DateTime :=
  Month_get_month_range p.2

/-- `Month.prev_month`: `Month(self.events, (self.start -
timedelta(days=1)).replace(day=1))`. -/
def Month_prev (p : DateTime × DateTime) : DateTime × DateTime :=
  Month_get_month_range { prevDay p.1 with day := 1 }

/-- The shift computed in `Week._get_week_range`:
`(start.isoweekday() - FIRST_DAY_OF_WEEK) % 7`. -/
def week_shift (fdow : Nat) (start : DateTime) : Int :=
  (isoweekday start - (fdow : Int)) % 7

/-- The start instant from `Week._get_week_range`: midnight of the reference
date, shifted back to the configured first day of week when the shift is
positive. -/
def Week_start (fdow : Nat) (week : DateTime) : DateTime :=
  if 0 < week_shift fdow (dateFloor week) then
    subDays (week_shift fdow (dateFloor week)).toNat (dateFloor week)
  else
    dateFloor week

/-- `Week._get_week_range`: the aligned start and `start + 7 days`. -/
def Week_get_week_range (fdow : Nat) (week : DateTime) : DateTime × DateTime :=
  (Week_start fdow week, addDays 7 (Week_start fdow week))

/-- `Week.next_week`: `Week(self.events, self.end)`. -/
def Week_next (fdow : Nat) (p : DateTime × DateTime) : DateTime × DateTime :=
  Week_get_week_range fdow p.2

/-- `Week.prev_week`: `Week(self.events, self.start - timedelta(days=7))`. -/
def Week_prev (fdow : Nat) (p : DateTime × DateTime) : DateTime × DateTime :=
  Week_get_week_range fdow (subDays 7 p.1)

/-- `Day._get_day_range`: midnight to midnight of the next day. -/
def Day_get_day_range (date : DateTime) : DateTime × DateTime :=
  (dateFloor date, addDays 1 (dateFloor date))

/-- `Day.next_day`: `Day(self.events, self.end)`. -/
def Day_next (p : DateTime × DateTime) : DateTime × DateTime :=
  Day_get_day_range p.2

/-- `Day.prev_day`: `Day(self.events, self.start - timedelta(days=1))`. -/
def Day_prev (p : DateTime × DateTime) : DateTime × DateTime :=
  Day_get_day_range (subDays 1 p.1)

theorem dateFloor_valid {d : DateTime} (h : d.ValidDT) : (dateFloor d).ValidDT := by
  obtain ⟨h1, h2, h3, h4, h5⟩ := h
  exact ⟨h1, h2, h3, h4, by unfold dateFloor; simp⟩

theorem dateFloor_of_tod_zero {d : DateTime} (h : d.tod = 0) : dateFloor d = d := by
  cases d
  simp only at h
  subst h
  rfl

theorem isoweekday_bounds (d : DateTime) : 1 ≤ isoweekday d ∧ isoweekday d ≤ 7 := by
  unfold isoweekday
  omega

theorem Week_start_valid {w : DateTime} (fdow : Nat) (h : w.ValidDT) :
    (Week_start fdow w).ValidDT := by
  unfold Week_start
  split
  · exact subDays_valid _ (dateFloor_valid h)
  · exact dateFloor_valid h

theorem Week_start_tod (fdow : Nat) (w : DateTime) : (Week_start fdow w).tod = 0 := by
  unfold Week_start
  split
  · rw [subDays_tod]
    rfl
  · rfl

theorem Week_start_dayNumber {w : DateTime} (fdow : Nat) (h : w.ValidDT) :
    dayNumber (Week_start fdow w) =
      dayNumber (dateFloor w) - week_shift fdow (dateFloor w) := by
  have hsh : 0 ≤ week_shift fdow (dateFloor w) := by
    unfold week_shift
    omega
  unfold Week_start
  split
  case isTrue hpos =>
    rw [dayNumber_subDays _ (dateFloor_valid h)]
    omega
  case isFalse hz =>
    omega

theorem Week_start_aligned {w : DateTime} (fdow : Nat) (h : w.ValidDT) :
    week_shift fdow (Week_start fdow w) = 0 := by
  have hd := Week_start_dayNumber fdow h
  unfold week_shift isoweekday at *
  omega

theorem Week_start_of_aligned {S : DateTime} (fdow : Nat) (hv : S.ValidDT)
    (ht : S.tod = 0) (ha : week_shift fdow S = 0) : Week_start fdow S = S := by
  unfold Week_start
  rw [dateFloor_of_tod_zero ht, ha]
  simp

theorem Year_roundtrip (ref : DateTime) :
    Year_prev (Year_next (Year_get_year_range ref)) = Year_get_year_range ref := by
  unfold Year_prev Year_next Year_get_year_range
  dsimp only
  simp only [Prod.mk.injEq, DateTime.mk.injEq, and_true, true_and]
  omega

theorem Month_roundtrip {ref : DateTime} (h : ref.ValidDT) :
    Month_prev (Month_next (Month_get_month_range ref)) =
      Month_get_month_range ref := by
  obtain ⟨h1, h2, h3, h4, h5⟩ := h
  cases ref with
  | mk y m dd t =>
    simp only at h1 h2
    rcases eq_or_lt_of_le h2 with hm | hm
    · subst hm
      unfold Month_next Month_prev Month_get_month_range prevDay
      norm_num
    · have hm' : ¬ m = 12 := by omega
      unfold Month_next Month_prev Month_get_month_range prevDay
      simp only [hm', if_false]
      split_ifs <;> simp_all <;> omega

theorem addDays_seven_aligned {S : DateTime} (fdow : Nat) (hv : S.ValidDT)
    (ha : week_shift fdow S = 0) : week_shift fdow (addDays 7 S) = 0 := by
  unfold week_shift isoweekday at ha ⊢
  rw [dayNumber_addDays _ hv]
  omega

theorem Week_roundtrip {ref : DateTime} (fdow : Nat) (h : ref.ValidDT) :
    Week_prev fdow (Week_next fdow (Week_get_week_range fdow ref)) =
      Week_get_week_range fdow ref := by
  have hv : (Week_start fdow ref).ValidDT := Week_start_valid fdow h
  have ht : (Week_start fdow ref).tod = 0 := Week_start_tod fdow ref
  have ha : week_shift fdow (Week_start fdow ref) = 0 := Week_start_aligned fdow h
  have h7v : (addDays 7 (Week_start fdow ref)).ValidDT := addDays_valid _ hv
  have h7t : (addDays 7 (Week_start fdow ref)).tod = 0 := by
    rw [addDays_tod]; exact ht
  have h7a : week_shift fdow (addDays 7 (Week_start fdow ref)) = 0 :=
    addDays_seven_aligned fdow hv ha
  have hW7 : Week_start fdow (addDays 7 (Week_start fdow ref)) =
      addDays 7 (Week_start fdow ref) := Week_start_of_aligned fdow h7v h7t h7a
  have hWS : Week_start fdow (Week_start fdow ref) = Week_start fdow ref :=
    Week_start_of_aligned fdow hv ht ha
  unfold Week_prev Week_next Week_get_week_range
  dsimp only
  rw [hW7, subDays_addDays _ hv, hWS]

theorem Day_roundtrip {ref : DateTime} (h : ref.ValidDT) :
    Day_prev (Day_next (Day_get_day_range ref)) = Day_get_day_range ref := by
  have hv : (dateFloor ref).ValidDT := dateFloor_valid h
  have hnt : (nextDay (dateFloor ref)).tod = 0 := by
    rw [nextDay_tod]; rfl
  have h1 : addDays 1 (dateFloor ref) = nextDay (dateFloor ref) := rfl
  show Day_prev (Day_get_day_range (addDays 1 (dateFloor ref))) = _
  rw [h1]
  unfold Day_prev Day_get_day_range
  rw [dateFloor_of_tod_zero hnt]
  show (dateFloor (subDays 1 (nextDay (dateFloor ref))), _) = _
  have h2 : subDays 1 (nextDay (dateFloor ref)) = prevDay (nextDay (dateFloor ref)) := rfl
  rw [h2, prevDay_nextDay hv, dateFloor_of_tod_zero rfl]

/-- C6: for every Year, Month, Week and Day period constructed from any
reference instant, `period.next().prev()` reproduces the same
`(start, end)` pair. -/
theorem claim_C6 (fdow : Nat) (ref : DateTime) (h : ref.ValidDT) :
    Year_prev (Year_next (Year_get_year_range ref)) = Year_get_year_range ref ∧
    Month_prev (Month_next (Month_get_month_range ref)) =
      Month_get_month_range ref ∧
    Week_prev fdow (Week_next fdow (Week_get_week_range fdow ref)) =
      Week_get_week_range fdow ref ∧
    Day_prev (Day_next (Day_get_day_range ref)) = Day_get_day_range ref :=
  ⟨Year_roundtrip ref, Month_roundtrip h, Week_roundtrip fdow h, Day_roundtrip h⟩

theorem claim_C6_witness :
    Week_prev 0 (Week_next 0 (Week_get_week_range 0 ⟨2008, 2, 7, 32400000000⟩)) =
      Week_get_week_range 0 ⟨2008, 2, 7, 32400000000⟩ ∧
    Month_prev (Month_next (Month_get_month_range ⟨2008, 2, 7, 32400000000⟩)) =
      Month_get_month_range ⟨2008, 2, 7, 32400000000⟩ := by
  have h := claim_C6 0 ⟨2008, 2, 7, 32400000000⟩ (by decide)
  exact ⟨h.2.2.1, h.2.1⟩

/-! ## Sub-period iteration (`Period.get_periods`)

`get_periods(cls)` starts from `create_sub_period(cls)` — a child of the
variant constructed at `self.start`, whose own `(start, end)` comes from the
variant's `_get_*_range` — and, while the current child's start is before
`self.end`, yields a child constructed at that start and advances via the
variant's `next()`.  The child variants reachable from `get_periods` are
Month, Week and Day (`get_months`/`get_weeks`/`get_days`); each yielded child
is represented by its `(start, end)` pair, and the generator is modelled
with an explicit fuel parameter. -/

inductive PeriodVariant where
  | month
  | week
  | day
deriving DecidableEq, Repr

/-- `cls(self.events, date, ...)`: the range the child variant derives from a
reference instant. -/
def variant_range (v : PeriodVariant) (fdow : Nat) (date : DateTime) :
    DateTime × DateTime :=
  match v with
  | .month => Month_get_month_range date
  | .week => Week_get_week_range fdow date
  | .day => Day_get_day_range date

/-- `period.next()` for the child variant. -/
def variant_next (v : PeriodVariant) (fdow : Nat) (p : DateTime × DateTime) :
    DateTime × DateTime :=
  match v with
  | .month => Month_next p
  | .week => Week_next fdow p
  | .day => Day_next p

/-- The `while period.start < self.end: yield ...; period = period.next()`
loop of `Period.get_periods`, with fuel. -/
def get_periods_from (v : PeriodVariant) (fdow : Nat) (end_ : DateTime) :
    Nat → DateTime × DateTime → List (DateTime × DateTime)
  | 0, _ => []
  | fuel + 1, period =>
    if dateLt period.1 end_ then
      variant_range v fdow period.1 ::
        get_periods_from v fdow end_ fuel (variant_next v fdow period)
    else []

/-- `Period.get_periods(cls)`: iterate from `create_sub_period(cls)` (the
child derived at `self.start`). -/
def Period.get_periods (v : PeriodVariant) (fdow : Nat) (p : Period)
    (fuel : Nat) : List (DateTime × DateTime) :=
  get_periods_from v fdow p.end_ fuel (variant_range v fdow p.start)

theorem variant_next_eq (v : PeriodVariant) (fdow : Nat) (p : DateTime × DateTime) :
    variant_next v fdow p = variant_range v fdow p.2 := by
  cases v <;> rfl

/-- The invariant of starts produced by a variant: a valid midnight instant,
on the variant's own boundary. -/
def VariantInv (v : PeriodVariant) (fdow : Nat) (S : DateTime) : Prop :=
  S.ValidDT ∧ S.tod = 0 ∧
    (match v with
     | .month => S.day = 1
     | .week => week_shift fdow S = 0
     | .day => True)

theorem variant_range_start_inv (v : PeriodVariant) (fdow : Nat) {x : DateTime}
    (h : x.ValidDT) : VariantInv v fdow (variant_range v fdow x).1 := by
  cases v
  case month =>
    obtain ⟨h1, h2, h3, h4, h5⟩ := h
    unfold variant_range Month_get_month_range VariantInv DateTime.ValidDT
    dsimp only
    exact ⟨⟨h1, h2, le_refl 1, daysInMonth_pos _ _, by norm_num⟩, rfl, rfl⟩
  case week =>
    exact ⟨Week_start_valid fdow h, Week_start_tod fdow x, Week_start_aligned fdow h⟩
  case day =>
    exact ⟨dateFloor_valid h, rfl, trivial⟩

theorem variant_range_start_eq (v : PeriodVariant) (fdow : Nat) {S : DateTime}
    (h : VariantInv v fdow S) : (variant_range v fdow S).1 = S := by
  obtain ⟨hv, ht, hx⟩ := h
  cases v
  case month =>
    cases S
    simp_all [variant_range, Month_get_month_range]
  case week =>
    exact Week_start_of_aligned fdow hv ht hx
  case day =>
    exact dateFloor_of_tod_zero ht

theorem variant_range_of_start (v : PeriodVariant) (fdow : Nat) {x : DateTime}
    (h : x.ValidDT) :
    variant_range v fdow ((variant_range v fdow x).1) = variant_range v fdow x := by
  cases v
  case month => rfl
  case week =>
    have hInv := variant_range_start_inv .week fdow h
    obtain ⟨hv, ht, hx⟩ := hInv
    unfold variant_range Week_get_week_range at *
    rw [Week_start_of_aligned fdow hv ht hx]
  case day => rfl

theorem variant_end_inv (v : PeriodVariant) (fdow : Nat) {S : DateTime}
    (h : VariantInv v fdow S) : VariantInv v fdow (variant_range v fdow S).2 := by
  obtain ⟨hv, ht, hx⟩ := h
  cases v
  case month =>
    obtain ⟨h1, h2, h3, h4, h5⟩ := hv
    unfold variant_range Month_get_month_range VariantInv DateTime.ValidDT
    dsimp only
    split_ifs with h12
    · exact ⟨⟨by norm_num, by norm_num, le_refl 1, daysInMonth_pos _ _, by norm_num⟩,
        rfl, rfl⟩
    · exact ⟨⟨by dsimp only; omega, by dsimp only; omega, le_refl 1,
        daysInMonth_pos _ _, by norm_num⟩, rfl, rfl⟩
  case week =>
    have hws : Week_start fdow S = S := Week_start_of_aligned fdow hv ht hx
    unfold variant_range Week_get_week_range VariantInv
    dsimp only
    rw [hws]
    exact ⟨addDays_valid _ hv, by rw [addDays_tod]; exact ht,
      addDays_seven_aligned fdow hv hx⟩
  case day =>
    have hfl : dateFloor S = S := dateFloor_of_tod_zero ht
    unfold variant_range Day_get_day_range VariantInv
    dsimp only
    rw [hfl]
    exact ⟨addDays_valid _ hv, by rw [addDays_tod]; exact ht, trivial⟩

theorem variant_end_lt (v : PeriodVariant) (fdow : Nat) {S : DateTime}
    (h : VariantInv v fdow S) : dateLt S (variant_range v fdow S).2 := by
  obtain ⟨hv, ht, hx⟩ := h
  cases v
  case month =>
    unfold variant_range Month_get_month_range
    dsimp only
    cases S
    simp_all only
    unfold dateLt
    split_ifs <;> dsimp only <;> omega
  case week =>
    unfold variant_range Week_get_week_range
    dsimp only
    rw [Week_start_of_aligned fdow hv ht hx]
    exact dateLt_addDays 7 (by omega) hv
  case day =>
    unfold variant_range Day_get_day_range
    dsimp only
    rw [dateFloor_of_tod_zero ht]
    exact dateLt_addDays 1 (by omega) hv

theorem variant_advance (v : PeriodVariant) (fdow : Nat) {S : DateTime}
    (h : VariantInv v fdow S) :
    dayNumber S < dayNumber (variant_range v fdow S).2 := by
  have hE := variant_end_inv v fdow h
  have hlt := variant_end_lt v fdow h
  apply dateOnlyLt_dayNumber h.1 hE.1
  have ht1 := h.2.1
  have ht2 := hE.2.1
  unfold dateLt at hlt
  unfold dateOnlyLt
  omega

/-- Fuel sufficient for the iteration to run to completion. -/
def periods_bound (end_ S : DateTime) : Nat :=
  (dayNumber end_ + 1 - dayNumber S).toNat

theorem get_periods_from_succ (v : PeriodVariant) (fdow : Nat)
    (end_ : DateTime) (fuel : Nat) (p : DateTime × DateTime) :
    get_periods_from v fdow end_ (fuel + 1) p =
      if dateLt p.1 end_ then
        variant_range v fdow p.1 ::
          get_periods_from v fdow end_ fuel (variant_next v fdow p)
      else [] := rfl

/-- With enough fuel the result no longer depends on the fuel: the
`while` loop terminates. -/
theorem get_periods_from_stable (v : PeriodVariant) (fdow : Nat)
    {end_ : DateTime} (hend : end_.ValidDT) :
    ∀ (fuel extra : Nat) (S : DateTime), VariantInv v fdow S →
      periods_bound end_ S ≤ fuel →
      get_periods_from v fdow end_ (fuel + extra) (variant_range v fdow S) =
        get_periods_from v fdow end_ fuel (variant_range v fdow S) := by
  intro fuel
  induction fuel with
  | zero =>
    intro extra S hInv hb
    have hg : ¬ dateLt ((variant_range v fdow S).1) end_ := by
      rw [variant_range_start_eq v fdow hInv]
      intro hlt
      have := dateLt_dayNumber_le hInv.1 hend hlt
      unfold periods_bound at hb
      omega
    cases extra with
    | zero => rfl
    | succ e =>
      have h0 : 0 + (e + 1) = e + 1 := by omega
      rw [h0, get_periods_from_succ, if_neg hg]
      rfl
  | succ fuel ih =>
    intro extra S hInv hb
    have heq : fuel + 1 + extra = (fuel + extra) + 1 := by omega
    rw [heq, get_periods_from_succ, get_periods_from_succ]
    by_cases hg : dateLt ((variant_range v fdow S).1) end_
    · rw [if_pos hg, if_pos hg]
      congr 1
      rw [variant_next_eq]
      have hEInv := variant_end_inv v fdow hInv
      have hadv := variant_advance v fdow hInv
      exact ih extra _ hEInv (by unfold periods_bound at *; omega)
    · rw [if_neg hg, if_neg hg]

/-- The behaviour of the `get_periods` loop from an aligned start with enough
fuel: non-empty exactly when the start is before the period's end, the first
yielded child is the one derived at the start, every yielded child starts
before the period's end, starts are strictly increasing, and the successor
of the last yielded child does not start before the period's end. -/
theorem get_periods_from_spec (v : PeriodVariant) (fdow : Nat)
    {end_ : DateTime} (hend : end_.ValidDT) :
    ∀ (fuel : Nat) (S : DateTime), VariantInv v fdow S →
      periods_bound end_ S ≤ fuel →
      ((dateLt S end_ →
          get_periods_from v fdow end_ fuel (variant_range v fdow S) ≠ [] ∧
          (get_periods_from v fdow end_ fuel (variant_range v fdow S)).head? =
            some (variant_range v fdow S)) ∧
       (¬ dateLt S end_ →
          get_periods_from v fdow end_ fuel (variant_range v fdow S) = []) ∧
       (∀ pr ∈ get_periods_from v fdow end_ fuel (variant_range v fdow S),
          dateLt pr.1 end_) ∧
       List.Chain' (fun a b => dateLt a.1 b.1)
         (get_periods_from v fdow end_ fuel (variant_range v fdow S)) ∧
       (∀ last,
          (get_periods_from v fdow end_ fuel (variant_range v fdow S)).getLast? =
            some last → ¬ dateLt (variant_next v fdow last).1 end_)) := by
  intro fuel
  induction fuel with
  | zero =>
    intro S hInv hb
    have hg : ¬ dateLt S end_ := by
      intro hlt
      have := dateLt_dayNumber_le hInv.1 hend hlt
      unfold periods_bound at hb
      omega
    exact ⟨fun h => absurd h hg, fun _ => rfl, by simp [get_periods_from],
      by simp [get_periods_from], by simp [get_periods_from]⟩
  | succ fuel ih =>
    intro S hInv hb
    have hSeq : (variant_range v fdow S).1 = S := variant_range_start_eq v fdow hInv
    have hEInv := variant_end_inv v fdow hInv
    have hadv := variant_advance v fdow hInv
    have hElt := variant_end_lt v fdow hInv
    have hEeq : (variant_range v fdow ((variant_range v fdow S).2)).1 =
        (variant_range v fdow S).2 := variant_range_start_eq v fdow hEInv
    rw [get_periods_from_succ, hSeq]
    by_cases hg : dateLt S end_
    · rw [if_pos hg, variant_next_eq]
      obtain ⟨ihfirst, ihempty, ihmem, ihchain, ihlast⟩ :=
        ih ((variant_range v fdow S).2) hEInv (by unfold periods_bound at *; omega)
      refine ⟨fun _ => ⟨by simp, by simp⟩, fun h => absurd hg h, ?_, ?_, ?_⟩
      · intro pr hpr
        rcases List.mem_cons.mp hpr with rfl | hpr
        · rw [hSeq]
          exact hg
        · exact ihmem pr hpr
      · rw [List.chain'_cons']
        refine ⟨?_, ihchain⟩
        intro b hb2
        by_cases hgE : dateLt ((variant_range v fdow S).2) end_
        · obtain ⟨-, hhead⟩ := ihfirst hgE
          rw [hhead] at hb2
          injection hb2 with hb2
          subst hb2
          rw [hSeq, hEeq]
          exact hElt
        · rw [ihempty hgE] at hb2
          simp at hb2
      · intro last hlast
        by_cases hT : get_periods_from v fdow end_ fuel
            (variant_range v fdow ((variant_range v fdow S).2)) = []
        · rw [hT] at hlast
          simp only [List.getLast?_singleton, Option.some.injEq] at hlast
          subst hlast
          rw [variant_next_eq, hEeq]
          intro hlt
          exact (ihfirst hlt).1 hT
        · obtain ⟨b, T', hbt⟩ := List.exists_cons_of_ne_nil hT
          rw [hbt, List.getLast?_cons_cons] at hlast
          exact ihlast last (by rw [hbt]; exact hlast)
    · rw [if_neg hg]
      exact ⟨fun h => absurd h hg, fun _ => rfl, by simp, by simp, by simp⟩

theorem dateLe_trans {a b c : DateTime} (h1 : dateLe a b) (h2 : dateLe b c) :
    dateLe a c := by
  rcases h2 with h2 | rfl
  · exact Or.inl (dateLe_trans_lt h1 h2)
  · exact h1

theorem dateFloor_le (x : DateTime) : dateLe (dateFloor x) x := by
  rw [dateLe_iff]
  unfold dateFloor
  dsimp only
  omega

theorem variant_range_start_le (v : PeriodVariant) (fdow : Nat) {x : DateTime}
    (h : x.ValidDT) : dateLe ((variant_range v fdow x).1) x := by
  obtain ⟨h1, h2, h3, h4, h5⟩ := h
  cases v
  case month =>
    unfold variant_range Month_get_month_range
    dsimp only
    rw [dateLe_iff]
    dsimp only
    omega
  case week =>
    refine dateLe_trans ?_ (dateFloor_le x)
    unfold variant_range Week_get_week_range Week_start
    dsimp only
    split
    · exact subDays_dateLe _ (dateFloor_valid ⟨h1, h2, h3, h4, h5⟩)
    · exact dateLe_refl _
  case day =>
    exact dateFloor_le x

/-- C5 (amended): for every Period with a valid non-empty range and every
child variant (Month, Week, Day), `get_periods` terminates (the result is
fuel-independent once the fuel covers the day span), yields children with
strictly increasing starts, every yielded child starts before the period's
end and the successor of the last yielded child does not, and the first
yielded child is the one the variant derives at `self.start` — its start is
the variant-boundary instant at or before `self.start` (equal to `self.start`
only when `self.start` lies on such a boundary), not `self.start` itself in
general. -/
theorem claim_C5 (v : PeriodVariant) (fdow : Nat) (p : Period)
    (hs : p.start.ValidDT) (he : p.end_.ValidDT) (hlt : dateLt p.start p.end_)
    (fuel : Nat)
    (hfuel : periods_bound p.end_ ((variant_range v fdow p.start).1) ≤ fuel) :
    Period.get_periods v fdow p fuel ≠ [] ∧
    (Period.get_periods v fdow p fuel).head? =
      some (variant_range v fdow p.start) ∧
    dateLe ((variant_range v fdow p.start).1) p.start ∧
    (∀ pr ∈ Period.get_periods v fdow p fuel, dateLt pr.1 p.end_) ∧
    List.Chain' (fun a b => dateLt a.1 b.1) (Period.get_periods v fdow p fuel) ∧
    (∀ last, (Period.get_periods v fdow p fuel).getLast? = some last →
      dateLe p.end_ (variant_next v fdow last).1) ∧
    (∀ extra, Period.get_periods v fdow p (fuel + extra) =
      Period.get_periods v fdow p fuel) := by
  have hInv := variant_range_start_inv v fdow hs
  have hle := variant_range_start_le v fdow hs
  have hS0lt : dateLt ((variant_range v fdow p.start).1) p.end_ :=
    dateLe_trans_lt hle hlt
  have hrw : variant_range v fdow ((variant_range v fdow p.start).1) =
      variant_range v fdow p.start := variant_range_of_start v fdow hs
  obtain ⟨hfirst, hempty, hmem, hchain, hlast⟩ :=
    get_periods_from_spec v fdow he fuel ((variant_range v fdow p.start).1)
      hInv hfuel
  rw [hrw] at hfirst hempty hmem hchain hlast
  obtain ⟨hne, hhead⟩ := hfirst hS0lt
  unfold Period.get_periods
  refine ⟨hne, hhead, hle, hmem, hchain, ?_, ?_⟩
  · intro last hl
    rcases dateLt_or_ge ((variant_next v fdow last).1) p.end_ with hltd | hge
    · exact absurd hltd (hlast last hl)
    · exact hge
  · intro extra
    rw [← hrw]
    exact get_periods_from_stable v fdow he fuel extra _ hInv hfuel

/-- C5 counterexample: on a Period starting 2008-02-07 09:00, `get_periods`
with the Day variant yields as first child the Day starting 2008-02-07 00:00,
which differs from the period's own start — the claim that the first yielded
child has `start == P.start` fails for unaligned starts. -/
theorem claim_C5_counterexample :
    ((Period.init settings_new [] ⟨2008, 2, 7, 32400000000⟩
        ⟨2008, 2, 8, 0⟩).get_periods .day 0 5).head?.map Prod.fst =
      some ⟨2008, 2, 7, 0⟩ ∧
    (Period.init settings_new [] ⟨2008, 2, 7, 32400000000⟩
        ⟨2008, 2, 8, 0⟩).start = ⟨2008, 2, 7, 32400000000⟩ ∧
    (⟨2008, 2, 7, 0⟩ : DateTime) ≠ ⟨2008, 2, 7, 32400000000⟩ := by
  decide

def periodC5 : Period := Period.init settings_new [] ⟨2008, 4, 1, 0⟩ ⟨2009, 1, 1, 0⟩

theorem claim_C5_witness :
    Period.get_periods .month 0 periodC5 300 ≠ [] ∧
    (Period.get_periods .month 0 periodC5 300).head? =
      some (variant_range .month 0 periodC5.start) ∧
    dateLe ((variant_range .month 0 periodC5.start).1) periodC5.start := by
  have h := claim_C5 .month 0 periodC5 (by decide) (by decide) (by decide) 300
    (by decide)
  exact ⟨h.1, h.2.1, h.2.2.1⟩
